import Mathlib

/-!
# Light sensor plugin: `GazeboRosLight::OnNewFrame`

A shallow embedding of `light_sensor_plugin.cpp` / `light_sensor_plugin.h`.

Conventions of the embedding
* `unsigned int` and `int` values are integers; every conversion between the
  two 32-bit types that the C++ expression performs is written out with
  `toUInt32` / `toInt32`.
* A finite `double` is the rational number it denotes.  The result of a
  `double` operation is the exact result rounded to binary64 (round to
  nearest, ties to even, with subnormals and overflow to `+inf`):
  `roundDouble` for a nonnegative rational, `roundNat` for a natural number.
* `_fov` is a `double` member: `fov : ℚ` is any finite value of it (the
  constructor stores `6`).  The non-finite values are not covered.
* The frame buffer `const unsigned char *_image` is a list of bytes; a read
  at an index outside the list is undefined behaviour in the source and is
  reported as `Mean.outOfBounds`.
* The counter `static int seq` is a 32-bit `int`: `seq++` goes through
  `toInt32`, and the unsigned field `msg.header.seq` through `toUInt32`.
* `common::Time` values (simulated time, update period) and the wall-clock
  stamp come from the host libraries; they are integers (nanoseconds).
-/

namespace LightSensor

/-! ## 32-bit machine integers -/

/-- Conversion of an integer value to `unsigned int`: reduction modulo `2^32`. -/
def toUInt32 (x : Int) : Int := x % 4294967296

/-- Conversion of an integer value to `int`: the two's complement
representative in `[-2^31, 2^31)`. -/
def toInt32 (x : Int) : Int :=
  if x % 4294967296 < 2147483648 then x % 4294967296 else x % 4294967296 - 4294967296

/-- The value of an `unsigned char`. -/
abbrev Byte := Fin 256

/-! ## binary64 rounding -/

/-- Nearest integer to a rational, a tie going to the even neighbour. -/
def roundHalfEven (q : ℚ) : Int :=
  if q - (⌊q⌋ : ℚ) < 1 / 2 then ⌊q⌋
  else if 1 / 2 < q - (⌊q⌋ : ℚ) then ⌊q⌋ + 1
  else if ⌊q⌋ % 2 = 0 then ⌊q⌋ else ⌊q⌋ + 1

/-- Exponent of the spacing of binary64 numbers at a nonnegative rational `q`:
53 significant bits, that is `⌊log2 q⌋ - 52`, and no finer than the
subnormal spacing `2^-1074`. -/
def ulpExp (q : ℚ) : Int := max (Int.log 2 q - 52) (-1074)

/-- Rounding of a nonnegative rational to binary64: the nearest multiple of
the spacing, ties to even; `none` is the result `+inf` (the rounded value
reaches `2^1024`). -/
def roundDouble (q : ℚ) : Option ℚ :=
  if (roundHalfEven (q / (2 : ℚ) ^ ulpExp q) : ℚ) * (2 : ℚ) ^ ulpExp q < (2 : ℚ) ^ (1024 : Nat) then
    some ((roundHalfEven (q / (2 : ℚ) ^ ulpExp q) : ℚ) * (2 : ℚ) ^ ulpExp q)
  else none

/-- Rounding of a natural number to binary64.  Below `2^53` every natural
number is a `double`; from there on the spacing is `2^(⌊log2 n⌋ - 52)` and
the number is rounded to the nearest multiple, ties to even. -/
def roundNat (n : Nat) : Nat :=
  if n < 9007199254740992 then n
  else if 2 * (n % 2 ^ (Nat.log 2 n - 52)) < 2 ^ (Nat.log 2 n - 52) then
    n / 2 ^ (Nat.log 2 n - 52) * 2 ^ (Nat.log 2 n - 52)
  else if 2 ^ (Nat.log 2 n - 52) < 2 * (n % 2 ^ (Nat.log 2 n - 52)) then
    (n / 2 ^ (Nat.log 2 n - 52) + 1) * 2 ^ (Nat.log 2 n - 52)
  else if n / 2 ^ (Nat.log 2 n - 52) % 2 = 0 then
    n / 2 ^ (Nat.log 2 n - 52) * 2 ^ (Nat.log 2 n - 52)
  else (n / 2 ^ (Nat.log 2 n - 52) + 1) * 2 ^ (Nat.log 2 n - 52)

/-! ## The reduction (lines 91-101 of `OnNewFrame`) -/

/-- The cast `(int)(_fov/2)`: half of the window side, truncated toward zero.
Halving a `double` is exact except among subnormals, where the truncation is
`0` either way.  For a quotient outside the range of `int` the cast is
undefined in the source; the truncated integer is taken. -/
def halfFov (fov : ℚ) : Int := if 0 ≤ fov then ⌊fov / 2⌋ else ⌈fov / 2⌉

/-- Number of times the body of `for (int i=0; i<_fov ; ++i)` runs: the
number of integers `i >= 0` with `i < _fov`. -/
def loopCount (fov : ℚ) : Nat := ⌈fov⌉.toNat

/-- The line
`int startingPix = _width * ( (int)(_height/2) - (int)( _fov/2)) - (int)(_fov/2);`
The difference of the two `int`s is converted to `unsigned int` for the
product with `_width`, the second `(int)(_fov/2)` likewise for the
subtraction, and the `unsigned int` result is stored in an `int`. -/
def startingPix (width height : Nat) (fov : ℚ) : Int :=
  toInt32 (toUInt32 (toUInt32 ((width : Int) * toUInt32 (((height / 2 : Nat) : Int) - halfFov fov))
    - toUInt32 (halfFov fov)))

/-- The line `int index = startingPix + i*_width;` (unsigned arithmetic, stored in an `int`). -/
def rowIndex (width height : Nat) (fov : ℚ) (i : Nat) : Int :=
  toInt32 (toUInt32 (toUInt32 (startingPix width height fov) + toUInt32 ((i : Int) * (width : Int))))

/-- The subscript `index+j` of `_image[index+j]` in row `i` of the window. -/
def pixelIndex (width height : Nat) (fov : ℚ) (i j : Nat) : Int :=
  toInt32 (rowIndex width height fov i + (j : Int))

/-- The read `_image[idx]`, as the number added to `illum`: `none` when `idx`
is outside the buffer. -/
def readSample (image : List Byte) (idx : Int) : Option Nat :=
  if idx < 0 then none else (image[idx.toNat]?).map Fin.val

/-- The inner loop `for (int j=0; j<_fov ; ++j) illum += _image[index+j];`
of row `i`, with `n` iterations left, loop variable `j` and accumulator
`illum`.  The accumulator is a `double` holding a natural number; each
addition is rounded. -/
def innerLoop (image : List Byte) (width height : Nat) (fov : ℚ) (i : Nat) :
    Nat → Nat → Nat → Option Nat
  | 0, _, illum => some illum
  | n + 1, j, illum =>
    match readSample image (pixelIndex width height fov i j) with
    | none => none
    | some s => innerLoop image width height fov i n (j + 1) (roundNat (illum + s))

/-- The outer loop `for (int i=0; i<_fov ; ++i)`, with `n` iterations left,
loop variable `i` and accumulator `illum`. -/
def outerLoop (image : List Byte) (width height : Nat) (fov : ℚ) :
    Nat → Nat → Nat → Option Nat
  | 0, _, illum => some illum
  | n + 1, i, illum =>
    match innerLoop image width height fov i (loopCount fov) 0 illum with
    | none => none
    | some acc => outerLoop image width height fov n (i + 1) acc

/-- The value stored in `msg.illuminance`. -/
inductive Mean where
  /-- A finite `double`. -/
  | value (q : ℚ)
  /-- The result `+inf`. -/
  | inf
  /-- The result of `0.0/0.0`. -/
  | nan
  /-- A sample was read outside the buffer (undefined behaviour). -/
  | outOfBounds
  deriving DecidableEq, Repr

/-- The divisor `(_fov*_fov)` of line 101, a `double` product: `none` is `+inf`. -/
def divisor (fov : ℚ) : Option ℚ := roundDouble (fov * fov)

/-- The quotient `illum/(_fov*_fov)` of line 101 for an accumulator `illum`
and a divisor `d` (`none` is `+inf`). -/
def divDouble (illum : Nat) (d : Option ℚ) : Mean :=
  match d with
  | none => Mean.value 0
  | some d =>
    if d = 0 then (if illum = 0 then Mean.nan else Mean.inf)
    else
      match roundDouble ((illum : ℚ) / d) with
      | none => Mean.inf
      | some r => Mean.value r

/-- Lines 91-101: starting pixel, the two loops, and `illum/(_fov*_fov)`. -/
def reduce (image : List Byte) (width height : Nat) (fov : ℚ) : Mean :=
  match outerLoop image width height fov (loopCount fov) 0 0 with
  | none => Mean.outOfBounds
  | some illum => divDouble illum (divisor fov)

/-! ## The adapter state and `OnNewFrame` -/

/-- The message `sensor_msgs::Illuminance` built on lines 86-102. -/
structure Illuminance where
  /-- The field `header.stamp`, from `ros::Time::now()`. -/
  stamp : Int
  /-- The field `header.frame_id`. -/
  frame_id : String
  /-- The field `header.seq` (an unsigned 32-bit field). -/
  seq : Int
  /-- The field `illuminance`. -/
  illuminance : Mean
  /-- The field `variance`. -/
  variance : ℚ
  deriving DecidableEq, Repr

/-- One call of `_sensorPublisher.publish(msg)`, together with the value of
`cur_time` at which it happened. -/
structure Published where
  /-- Simulated time `cur_time` of the call that published. -/
  simTime : Int
  /-- The message handed to the publisher. -/
  msg : Illuminance
  deriving DecidableEq, Repr

/-- The state `OnNewFrame` reads and writes. -/
structure Adapter where
  /-- The value of `parentSensor->IsActive()`. -/
  active : Bool
  /-- The member `sensor_update_time_`. -/
  sensor_update_time : Int
  /-- The member `last_update_time_`. -/
  last_update_time : Int
  /-- The member `update_period_`. -/
  update_period : Int
  /-- The member `_fov`. -/
  fov : ℚ
  /-- The function-local `static int seq`. -/
  seq : Int
  /-- Number of `PutCameraData` / `PublishCameraInfo` call pairs made so far. -/
  cameraForwards : Nat
  /-- Every message published so far, oldest first. -/
  published : List Published
  deriving DecidableEq, Repr

/-- The arguments of one `OnNewFrame` call and the host values it reads. -/
structure FrameCall where
  /-- The buffer `_image`. -/
  image : List Byte
  /-- The argument `_width`. -/
  width : Nat
  /-- The argument `_height`. -/
  height : Nat
  /-- The value `*image_connect_count_`. -/
  connectCount : Int
  /-- The value `world_->SimTime()`. -/
  simTime : Int
  /-- The value `parentSensor_->LastUpdateTime()`. -/
  sensorLastUpdate : Int
  /-- The value `ros::Time::now()`. -/
  wallTime : Int
  deriving DecidableEq, Repr

/-- The constructor's settings (`_fov(6)`) and `static int seq=0`, for a given
activation state, last-publish time and update period. -/
def initial (active : Bool) (lastUpdate period : Int) : Adapter :=
  { active := active, sensor_update_time := 0, last_update_time := lastUpdate,
    update_period := period, fov := 6, seq := 0, cameraForwards := 0, published := [] }

/-- The message built on lines 86-102 of `OnNewFrame`. -/
def buildMsg (s : Adapter) (c : FrameCall) : Illuminance :=
  { stamp := c.wallTime, frame_id := "", seq := toUInt32 s.seq,
    illuminance := reduce c.image c.width c.height s.fov, variance := 0 }

/-- The method `GazeboRosLight::OnNewFrame` (lines 61-110).  The increment
`seq++` of the `int` counter is the two's complement successor. -/
def OnNewFrame (s : Adapter) (c : FrameCall) : Adapter :=
  let s := { s with sensor_update_time := c.sensorLastUpdate }
  if !s.active then
    if c.connectCount > 0 then { s with active := true } else s
  else
    if c.connectCount > 0 then
      if c.simTime - s.last_update_time ≥ s.update_period then
        { s with
          cameraForwards := s.cameraForwards + 1
          last_update_time := c.simTime
          published := s.published ++ [{ simTime := c.simTime, msg := buildMsg s c }]
          seq := toInt32 (s.seq + 1) }
      else s
    else s

/-- One frame event of a run: the host may have switched the sensor on or off
since the previous frame (`hostActive`), then calls `OnNewFrame`. -/
structure FrameEvent where
  /-- The activation state set by the host before this frame, if it set one. -/
  hostActive : Option Bool
  /-- The call itself. -/
  call : FrameCall
  deriving DecidableEq, Repr

/-- The adapter state after one frame event. -/
def stepEvent (s : Adapter) (e : FrameEvent) : Adapter :=
  OnNewFrame (match e.hostActive with
    | none => s
    | some b => { s with active := b }) e.call

/-- The adapter state after a finite sequence of frame events. -/
def run (s : Adapter) (es : List FrameEvent) : Adapter :=
  es.foldl stepEvent s

/-- A frame of `width * height` samples, all equal to `v`. -/
def uniformFrame (width height : Nat) (v : Byte) : List Byte :=
  List.replicate (width * height) v

/-- The gate in front of lines 82-106: sensor active, a subscriber present,
and the update period elapsed. -/
def accepts (s : Adapter) (c : FrameCall) : Prop :=
  s.active = true ∧ c.connectCount > 0 ∧ c.simTime - s.last_update_time ≥ s.update_period

/-- The state `OnNewFrame` is called on in a frame event. -/
def hosted (s : Adapter) (e : FrameEvent) : Adapter :=
  match e.hostActive with
  | none => s
  | some b => { s with active := b }

/-! ## Concrete states, frames and runs -/

/-- An adapter whose `int` counter holds its largest value. -/
def saturatedAdapter : Adapter :=
  { active := true, sensor_update_time := 0, last_update_time := 0, update_period := 5,
    fov := 6, seq := 2147483647, cameraForwards := 0, published := [] }

/-- A 64x48 frame of uniform intensity 100 arriving at simulated time `t`
with `n` subscribers. -/
def uniformCall (n t : Int) : FrameCall :=
  { image := uniformFrame 64 48 100, width := 64, height := 48, connectCount := n,
    simTime := t, sensorLastUpdate := t, wallTime := t }

/-- A run used to exercise the counter: publish, throttled frame, frame
after the host switched the sensor off, then two more publishes. -/
def demoEvents : List FrameEvent :=
  [⟨none, uniformCall 1 10⟩, ⟨none, uniformCall 1 12⟩, ⟨some false, uniformCall 1 20⟩,
   ⟨none, uniformCall 1 30⟩, ⟨none, uniformCall 1 40⟩]

/-- A 64x48 frame of zeros. -/
def darkFrame : List Byte := uniformFrame 64 48 0

/-- A 64x48 frame of zeros except for sample 1341 (row 20, column 61). -/
def edgeLitFrame : List Byte := (uniformFrame 64 48 0).set 1341 36

/-- A frame one sample wide and 12000000 samples tall, all samples 255. -/
def tallFrame : List Byte := uniformFrame 1 12000000 255

/-- The accumulator update `illum += v`. -/
def addSample (v illum : Nat) : Nat := roundNat (illum + v)

/-! ## Machine-integer lemmas -/

theorem toUInt32_of_range {x : Int} (h0 : 0 ≤ x) (h1 : x < 4294967296) : toUInt32 x = x := by
  unfold toUInt32
  omega

theorem toInt32_of_range {x : Int} (h0 : -2147483648 ≤ x) (h1 : x < 2147483648) :
    toInt32 x = x := by
  unfold toInt32
  omega

/-! ## Rounding lemmas -/

theorem roundHalfEven_intCast (z : Int) : roundHalfEven (z : ℚ) = z := by
  unfold roundHalfEven
  rw [Int.floor_intCast, sub_self, if_pos (by norm_num)]

theorem floor_le_roundHalfEven (q : ℚ) : ⌊q⌋ ≤ roundHalfEven q := by
  unfold roundHalfEven
  split_ifs <;> omega

theorem roundHalfEven_le (q : ℚ) : (roundHalfEven q : ℚ) ≤ q + 1 := by
  have h1 : ((⌊q⌋ : Int) : ℚ) ≤ q := Int.floor_le q
  unfold roundHalfEven
  split_ifs <;> push_cast <;> linarith

theorem roundHalfEven_nonneg {q : ℚ} (h : 0 ≤ q) : 0 ≤ roundHalfEven q :=
  le_trans (Int.floor_nonneg.2 h) (floor_le_roundHalfEven q)

theorem roundHalfEven_eq_zero_iff {q : ℚ} (h : 0 ≤ q) : roundHalfEven q = 0 ↔ q ≤ 1 / 2 := by
  have hf0 : 0 ≤ ⌊q⌋ := Int.floor_nonneg.2 h
  have h1 : ((⌊q⌋ : Int) : ℚ) ≤ q := Int.floor_le q
  have h2 : q < ((⌊q⌋ : Int) : ℚ) + 1 := Int.lt_floor_add_one q
  constructor
  · intro hr
    have hfl : ⌊q⌋ = 0 := le_antisymm (hr ▸ floor_le_roundHalfEven q) hf0
    unfold roundHalfEven at hr
    rw [hfl] at hr h1 h2
    simp only [Int.cast_zero, sub_zero] at hr
    by_contra hc
    rw [if_neg (by linarith), if_pos (by linarith)] at hr
    omega
  · intro hq
    have hfl : ⌊q⌋ = 0 := by
      rw [Int.floor_eq_iff]
      constructor <;> push_cast <;> linarith
    unfold roundHalfEven
    rw [hfl]
    simp only [Int.cast_zero, sub_zero]
    by_cases hlt : q < 1 / 2
    · rw [if_pos hlt]
    · rw [if_neg hlt, if_neg (by linarith)]
      simp

theorem ulpExp_ge (q : ℚ) : -1074 ≤ ulpExp q := le_max_right _ _

theorem two_zpow_pos (p : Int) : (0 : ℚ) < (2 : ℚ) ^ p := zpow_pos (by norm_num) p

theorem roundDouble_zero : roundDouble 0 = some 0 := by
  unfold roundDouble
  have h : roundHalfEven (0 / (2 : ℚ) ^ ulpExp 0) = 0 := by
    rw [zero_div]
    exact roundHalfEven_intCast 0
  rw [h]
  norm_num

/-- Spacing at a positive rational is at most the value itself, unless it is the subnormal spacing. -/
theorem two_zpow_ulpExp_le {q : ℚ} (hq : 0 < q) :
    (2 : ℚ) ^ ulpExp q ≤ max q ((2 : ℚ) ^ (-1074 : Int)) := by
  unfold ulpExp
  rcases le_total (Int.log 2 q - 52) (-1074) with h | h
  · rw [max_eq_right h]
    exact le_max_right _ _
  · rw [max_eq_left h]
    have h1 : (2 : ℚ) ^ (Int.log 2 q - 52) ≤ (2 : ℚ) ^ (Int.log 2 q) :=
      zpow_le_zpow_right₀ (by norm_num) (by omega)
    have h2 : ((2 : Nat) : ℚ) ^ (Int.log 2 q) ≤ q := Int.zpow_log_le_self (by norm_num) hq
    have h3 : (2 : ℚ) ^ (Int.log 2 q) ≤ q := by exact_mod_cast h2
    exact le_trans (le_trans h1 h3) (le_max_left _ _)

theorem roundDouble_eq_some_of_le {q : ℚ} (h0 : 0 ≤ q) (h1 : q ≤ 256) :
    ∃ r : ℚ, roundDouble q = some r ∧ 0 ≤ r := by
  have hp := two_zpow_pos (ulpExp q)
  have hm := roundHalfEven_le (q / (2 : ℚ) ^ ulpExp q)
  have hm0 : (0 : ℚ) ≤ (roundHalfEven (q / (2 : ℚ) ^ ulpExp q) : ℚ) := by
    exact_mod_cast roundHalfEven_nonneg (div_nonneg h0 (le_of_lt hp))
  have hr : (roundHalfEven (q / (2 : ℚ) ^ ulpExp q) : ℚ) * (2 : ℚ) ^ ulpExp q
      ≤ q + (2 : ℚ) ^ ulpExp q := by
    calc (roundHalfEven (q / (2 : ℚ) ^ ulpExp q) : ℚ) * (2 : ℚ) ^ ulpExp q
        ≤ (q / (2 : ℚ) ^ ulpExp q + 1) * (2 : ℚ) ^ ulpExp q :=
          mul_le_mul_of_nonneg_right hm (le_of_lt hp)
      _ = q + (2 : ℚ) ^ ulpExp q := by field_simp
  have hu : (2 : ℚ) ^ ulpExp q ≤ 256 := by
    rcases eq_or_lt_of_le h0 with h | h
    · rw [← h]
      have : ulpExp (0 : ℚ) = -52 := by
        unfold ulpExp
        rw [Int.log_zero_right]
        rfl
      rw [this]
      norm_num
    · refine le_trans (two_zpow_ulpExp_le h) (max_le h1 ?_)
      norm_num
  refine ⟨_, ?_, mul_nonneg hm0 (le_of_lt hp)⟩
  unfold roundDouble
  rw [if_pos]
  have : (512 : ℚ) < (2 : ℚ) ^ (1024 : Nat) := by norm_num
  linarith

theorem roundDouble_eq_zero_iff {q : ℚ} (h0 : 0 ≤ q) :
    roundDouble q = some 0 ↔ q ≤ (2 : ℚ) ^ (-1075 : Int) := by
  have hp := two_zpow_pos (ulpExp q)
  have hy : 0 ≤ q / (2 : ℚ) ^ ulpExp q := div_nonneg h0 (le_of_lt hp)
  have hz : roundDouble q = some 0 ↔ roundHalfEven (q / (2 : ℚ) ^ ulpExp q) = 0 := by
    unfold roundDouble
    constructor
    · intro h
      split_ifs at h with hlt
      · have h' := Option.some.inj h
        rcases mul_eq_zero.1 h' with h1 | h1
        · exact_mod_cast h1
        · exact absurd h1 (ne_of_gt hp)
    · intro h
      rw [h]
      norm_num
  rw [hz, roundHalfEven_eq_zero_iff hy, div_le_iff₀ hp]
  have h75 : (2 : ℚ) ^ (-1075 : Int) = 1 / 2 * (2 : ℚ) ^ (-1074 : Int) := by
    rw [show (-1075 : Int) = -1074 - 1 by norm_num, zpow_sub₀ (by norm_num)]
    field_simp
    ring
  constructor
  · intro h
    by_contra hc
    rw [not_le] at hc
    have hq : 0 < q := lt_trans (two_zpow_pos _) hc
    have hu := two_zpow_ulpExp_le hq
    have hge : (2 : ℚ) ^ (-1074 : Int) ≤ (2 : ℚ) ^ ulpExp q :=
      zpow_le_zpow_right₀ (by norm_num) (ulpExp_ge q)
    rcases le_total q ((2 : ℚ) ^ (-1074 : Int)) with hm | hm
    · rw [max_eq_right hm] at hu
      have he : (2 : ℚ) ^ ulpExp q = (2 : ℚ) ^ (-1074 : Int) := le_antisymm hu hge
      rw [he] at h
      rw [h75] at hc
      linarith
    · rw [max_eq_left hm] at hu
      -- spacing ≤ q/2^52 in the normal range
      unfold ulpExp at h hu
      rcases le_total (Int.log 2 q - 52) (-1074) with hl | hl
      · rw [max_eq_right hl] at h
        rw [h75] at hc
        linarith
      · rw [max_eq_left hl] at h
        have h2 : ((2 : Nat) : ℚ) ^ (Int.log 2 q) ≤ q := Int.zpow_log_le_self (by norm_num) hq
        have h3 : (2 : ℚ) ^ (Int.log 2 q) ≤ q := by exact_mod_cast h2
        have h4 : (2 : ℚ) ^ (Int.log 2 q - 52) = (2 : ℚ) ^ (Int.log 2 q) / 2 ^ (52 : Nat) := by
          rw [zpow_sub₀ (by norm_num)]
          norm_num
        rw [h4] at h
        have h5 : (0 : ℚ) < (2 : ℚ) ^ (Int.log 2 q) := two_zpow_pos _
        have : (2 : ℚ) ^ (Int.log 2 q) / 2 ^ (52 : Nat) ≤ 1 / 4 * (2 : ℚ) ^ (Int.log 2 q) := by
          rw [div_le_iff₀ (by norm_num)]
          have : (4 : ℚ) ≤ 2 ^ (52 : Nat) := by norm_num
          nlinarith
        nlinarith
  · intro h
    have hge : (2 : ℚ) ^ (-1074 : Int) ≤ (2 : ℚ) ^ ulpExp q :=
      zpow_le_zpow_right₀ (by norm_num) (ulpExp_ge q)
    rw [h75] at h
    generalize (2 : ℚ) ^ (-1074 : Int) = A at h hge
    generalize (2 : ℚ) ^ ulpExp q = B at hge ⊢
    linarith

theorem roundDouble_natCast (n : Nat) (h : n < 9007199254740992) :
    roundDouble (n : ℚ) = some (n : ℚ) := by
  rcases Nat.eq_zero_or_pos n with h0 | h0
  · subst h0
    simpa using roundDouble_zero
  · have hlog : Nat.log 2 n < 53 := Nat.log_lt_of_lt_pow (by omega) (by norm_num; exact h)
    have hu : ulpExp (n : ℚ) = -((52 - Nat.log 2 n : Nat) : Int) := by
      unfold ulpExp
      rw [Int.log_natCast]
      omega
    have hz : (2 : ℚ) ^ ulpExp (n : ℚ) = ((2 : ℚ) ^ (52 - Nat.log 2 n))⁻¹ := by
      rw [hu, zpow_neg, zpow_natCast]
    have hk : (0 : ℚ) < (2 : ℚ) ^ (52 - Nat.log 2 n) := pow_pos (by norm_num) _
    have hy : (n : ℚ) / (2 : ℚ) ^ ulpExp (n : ℚ) = ((n * 2 ^ (52 - Nat.log 2 n) : Nat) : Int) := by
      rw [hz]
      push_cast
      field_simp
    have hr : (roundHalfEven ((n : ℚ) / (2 : ℚ) ^ ulpExp (n : ℚ)) : ℚ) * (2 : ℚ) ^ ulpExp (n : ℚ)
        = (n : ℚ) := by
      rw [hy, roundHalfEven_intCast, hz]
      push_cast
      field_simp
    unfold roundDouble
    rw [hr, if_pos]
    have h1 : (n : ℚ) < 9007199254740992 := by exact_mod_cast h
    have h2 : (9007199254740992 : ℚ) < (2 : ℚ) ^ (1024 : Nat) := by norm_num
    linarith

theorem roundNat_of_lt {n : Nat} (h : n < 9007199254740992) : roundNat n = n := by
  unfold roundNat
  rw [if_pos h]

/-- In the binade `[2^53, 2^54)` the sum of a multiple of 4 and 255 is a tie, resolved upward. -/
theorem roundNat_add_255 (x : Nat) (h4 : x % 4 = 0) (hlo : 9007199254740992 ≤ x)
    (hhi : x + 256 < 18014398509481984) : roundNat (x + 255) = x + 256 := by
  have hlog : Nat.log 2 (x + 255) = 53 :=
    Nat.log_eq_of_pow_le_of_lt_pow (by norm_num; omega) (by norm_num; omega)
  unfold roundNat
  rw [hlog]
  norm_num
  split_ifs <;> omega

theorem ulpExp_of_binade {q : ℚ} (e : Int) (he : -1022 ≤ e) (h1 : (2 : ℚ) ^ e ≤ q)
    (h2 : q < (2 : ℚ) ^ (e + 1)) : ulpExp q = e - 52 := by
  have hq : 0 < q := lt_of_lt_of_le (two_zpow_pos e) h1
  have ha : e ≤ Int.log 2 q := by
    rw [← Int.zpow_le_iff_le_log (by norm_num) hq]
    exact_mod_cast h1
  have hb : Int.log 2 q < e + 1 := by
    rw [← Int.lt_zpow_iff_log_lt (by norm_num) hq]
    exact_mod_cast h2
  unfold ulpExp
  omega

/-! ## Loop lemmas -/

theorem innerLoop_zero (image : List Byte) (width height : Nat) (fov : ℚ) (i j illum : Nat) :
    innerLoop image width height fov i 0 j illum = some illum := rfl

theorem innerLoop_succ (image : List Byte) (width height : Nat) (fov : ℚ) (i n j illum : Nat) :
    innerLoop image width height fov i (n + 1) j illum =
      match readSample image (pixelIndex width height fov i j) with
      | none => none
      | some s => innerLoop image width height fov i n (j + 1) (roundNat (illum + s)) := rfl

theorem outerLoop_zero (image : List Byte) (width height : Nat) (fov : ℚ) (i illum : Nat) :
    outerLoop image width height fov 0 i illum = some illum := rfl

theorem outerLoop_succ (image : List Byte) (width height : Nat) (fov : ℚ) (n i illum : Nat) :
    outerLoop image width height fov (n + 1) i illum =
      match innerLoop image width height fov i (loopCount fov) 0 illum with
      | none => none
      | some acc => outerLoop image width height fov n (i + 1) acc := rfl

/-- While the total stays below `2^53` the inner loop adds the samples exactly. -/
theorem innerLoop_eq_some (image : List Byte) (width height : Nat) (fov : ℚ) (i : Nat)
    (g : Nat → Nat) :
    ∀ (n j illum : Nat),
      (∀ t, t < n → readSample image (pixelIndex width height fov i (j + t)) = some (g (j + t))) →
      illum + ∑ t in Finset.range n, g (j + t) < 9007199254740992 →
      innerLoop image width height fov i n j illum
        = some (illum + ∑ t in Finset.range n, g (j + t)) := by
  intro n
  induction n with
  | zero => intro j illum _ _; rw [innerLoop_zero]; simp
  | succ n ih =>
    intro j illum h hb
    have h0 := h 0 (Nat.succ_pos n)
    simp only [Nat.add_zero] at h0
    have hrest : ∀ t, t < n →
        readSample image (pixelIndex width height fov i (j + 1 + t)) = some (g (j + 1 + t)) := by
      intro t ht
      have := h (t + 1) (Nat.succ_lt_succ ht)
      have e : j + (t + 1) = j + 1 + t := by omega
      rw [e] at this
      exact this
    have e : ∑ t in Finset.range n, g (j + (t + 1)) = ∑ t in Finset.range n, g (j + 1 + t) :=
      Finset.sum_congr rfl (fun t _ => by rw [show j + (t + 1) = j + 1 + t by omega])
    rw [Finset.sum_range_succ', e, show j + 0 = j from rfl] at hb
    have hstep : roundNat (illum + g j) = illum + g j := roundNat_of_lt (by omega)
    rw [innerLoop_succ, h0]
    show innerLoop image width height fov i n (j + 1) (roundNat (illum + g j)) = _
    rw [hstep, ih (j + 1) (illum + g j) hrest (by omega), Finset.sum_range_succ']
    rw [e, show j + 0 = j from rfl]
    congr 1
    omega

/-- While the total stays below `2^53` the two loops add the samples exactly. -/
theorem outerLoop_eq_some (image : List Byte) (width height : Nat) (fov : ℚ)
    (g : Nat → Nat → Nat) :
    ∀ (n i illum : Nat),
      (∀ a, a < n → ∀ b, b < loopCount fov →
        readSample image (pixelIndex width height fov (i + a) b) = some (g (i + a) b)) →
      illum + ∑ a in Finset.range n, ∑ b in Finset.range (loopCount fov), g (i + a) b
        < 9007199254740992 →
      outerLoop image width height fov n i illum
        = some (illum + ∑ a in Finset.range n, ∑ b in Finset.range (loopCount fov), g (i + a) b) := by
  intro n
  induction n with
  | zero => intro i illum _ _; rw [outerLoop_zero]; simp
  | succ n ih =>
    intro i illum h hb
    have e : ∑ a in Finset.range n, ∑ b in Finset.range (loopCount fov), g (i + (a + 1)) b
        = ∑ a in Finset.range n, ∑ b in Finset.range (loopCount fov), g (i + 1 + a) b :=
      Finset.sum_congr rfl (fun a _ => by rw [show i + (a + 1) = i + 1 + a by omega])
    have e0 : ∑ b in Finset.range (loopCount fov), g i (0 + b)
        = ∑ b in Finset.range (loopCount fov), g i b :=
      Finset.sum_congr rfl (fun b _ => by rw [Nat.zero_add])
    rw [Finset.sum_range_succ', e, show i + 0 = i from rfl] at hb
    have hrow : innerLoop image width height fov i (loopCount fov) 0 illum
        = some (illum + ∑ b in Finset.range (loopCount fov), g i (0 + b)) := by
      apply innerLoop_eq_some image width height fov i (g i)
      · intro t ht
        have := h 0 (Nat.succ_pos n) t ht
        simpa using this
      · rw [e0]
        omega
    have hrest : ∀ a, a < n → ∀ b, b < loopCount fov →
        readSample image (pixelIndex width height fov (i + 1 + a) b) = some (g (i + 1 + a) b) := by
      intro a ha b hb
      have := h (a + 1) (Nat.succ_lt_succ ha) b hb
      have e : i + (a + 1) = i + 1 + a := by omega
      rw [e] at this
      exact this
    rw [outerLoop_succ, hrow]
    show outerLoop image width height fov n (i + 1) _ = _
    rw [e0, ih (i + 1) _ hrest (by omega), Finset.sum_range_succ']
    rw [e, show i + 0 = i from rfl]
    congr 1
    omega

theorem innerLoop_congr (imageA imageB : List Byte) (width height : Nat) (fov : ℚ) (i : Nat) :
    ∀ (n j illum : Nat),
      (∀ t, t < n → readSample imageA (pixelIndex width height fov i (j + t))
        = readSample imageB (pixelIndex width height fov i (j + t))) →
      innerLoop imageA width height fov i n j illum
        = innerLoop imageB width height fov i n j illum := by
  intro n
  induction n with
  | zero => intro j illum _; rfl
  | succ n ih =>
    intro j illum h
    have h0 := h 0 (Nat.succ_pos n)
    rw [show j + 0 = j from rfl] at h0
    rw [innerLoop_succ, innerLoop_succ, h0]
    cases readSample imageB (pixelIndex width height fov i j) with
    | none => rfl
    | some v =>
      show innerLoop imageA width height fov i n (j + 1) (roundNat (illum + v))
        = innerLoop imageB width height fov i n (j + 1) (roundNat (illum + v))
      apply ih
      intro t ht
      have := h (t + 1) (Nat.succ_lt_succ ht)
      rw [show j + (t + 1) = j + 1 + t by omega] at this
      exact this

theorem outerLoop_congr (imageA imageB : List Byte) (width height : Nat) (fov : ℚ) :
    ∀ (n i illum : Nat),
      (∀ a, a < n → ∀ b, b < loopCount fov →
        readSample imageA (pixelIndex width height fov (i + a) b)
          = readSample imageB (pixelIndex width height fov (i + a) b)) →
      outerLoop imageA width height fov n i illum
        = outerLoop imageB width height fov n i illum := by
  intro n
  induction n with
  | zero => intro i illum _; rfl
  | succ n ih =>
    intro i illum h
    have hrow := innerLoop_congr imageA imageB width height fov i (loopCount fov) 0 illum (by
      intro t ht
      have := h 0 (Nat.succ_pos n) t ht
      rw [show i + 0 = i from rfl] at this
      rw [Nat.zero_add]
      exact this)
    rw [outerLoop_succ, outerLoop_succ, hrow]
    cases innerLoop imageB width height fov i (loopCount fov) 0 illum with
    | none => rfl
    | some acc =>
      show outerLoop imageA width height fov n (i + 1) acc
        = outerLoop imageB width height fov n (i + 1) acc
      apply ih
      intro a ha b hb
      have := h (a + 1) (Nat.succ_lt_succ ha) b hb
      rw [show i + (a + 1) = i + 1 + a by omega] at this
      exact this

/-- The reduction is a function of the samples at the indices
`pixelIndex width height fov i j`, `0 <= i, j < fov`, and of nothing else in the frame. -/
theorem reduce_congr_window (imageA imageB : List Byte) (width height : Nat) (fov : ℚ)
    (h : ∀ i, i < loopCount fov → ∀ j, j < loopCount fov →
      readSample imageA (pixelIndex width height fov i j)
        = readSample imageB (pixelIndex width height fov i j)) :
    reduce imageA width height fov = reduce imageB width height fov := by
  have hl := outerLoop_congr imageA imageB width height fov (loopCount fov) 0 0 (by
    intro a ha b hb
    rw [Nat.zero_add]
    exact h a ha b hb)
  unfold reduce
  rw [hl]

theorem reduce_of_outerLoop (image : List Byte) (width height : Nat) (fov : ℚ) (illum : Nat)
    (h : outerLoop image width height fov (loopCount fov) 0 0 = some illum) :
    reduce image width height fov = divDouble illum (divisor fov) := by
  unfold reduce
  rw [h]

theorem reduce_of_outerLoop_none (image : List Byte) (width height : Nat) (fov : ℚ)
    (h : outerLoop image width height fov (loopCount fov) 0 0 = none) :
    reduce image width height fov = Mean.outOfBounds := by
  unfold reduce
  rw [h]

/-- The window total when every read of the window succeeds with value `g i j`
and the total stays below `2^53`. -/
theorem reduce_eq_of_reads (image : List Byte) (width height : Nat) (fov : ℚ)
    (g : Nat → Nat → Nat)
    (h : ∀ a, a < loopCount fov → ∀ b, b < loopCount fov →
      readSample image (pixelIndex width height fov a b) = some (g a b))
    (hb : ∑ a in Finset.range (loopCount fov), ∑ b in Finset.range (loopCount fov), g a b
      < 9007199254740992) :
    reduce image width height fov =
      divDouble (∑ a in Finset.range (loopCount fov), ∑ b in Finset.range (loopCount fov), g a b)
        (divisor fov) := by
  have hl := outerLoop_eq_some image width height fov g (loopCount fov) 0 0 (by
    intro a ha b hb
    simpa using h a ha b hb) (by simpa using hb)
  simp only [Nat.zero_add] at hl
  exact reduce_of_outerLoop image width height fov _ hl

/-- On reads that all return `v`, the inner loop applies `illum += v` `n` times. -/
theorem innerLoop_uniform (image : List Byte) (width height : Nat) (fov : ℚ) (i v : Nat) :
    ∀ (n j illum : Nat),
      (∀ t, t < n → readSample image (pixelIndex width height fov i (j + t)) = some v) →
      innerLoop image width height fov i n j illum = some ((addSample v)^[n] illum) := by
  intro n
  induction n with
  | zero => intro j illum _; rfl
  | succ n ih =>
    intro j illum h
    have h0 := h 0 (Nat.succ_pos n)
    rw [show j + 0 = j from rfl] at h0
    rw [innerLoop_succ, h0]
    show innerLoop image width height fov i n (j + 1) (roundNat (illum + v)) = _
    rw [ih (j + 1) _ (by
      intro t ht
      have := h (t + 1) (Nat.succ_lt_succ ht)
      rw [show j + (t + 1) = j + 1 + t by omega] at this
      exact this)]
    rfl

/-- On reads that all return `v`, the two loops apply `illum += v` `n * fov` times. -/
theorem outerLoop_uniform (image : List Byte) (width height : Nat) (fov : ℚ) (v : Nat) :
    ∀ (n i illum : Nat),
      (∀ a, a < n → ∀ b, b < loopCount fov →
        readSample image (pixelIndex width height fov (i + a) b) = some v) →
      outerLoop image width height fov n i illum
        = some ((addSample v)^[n * loopCount fov] illum) := by
  intro n
  induction n with
  | zero => intro i illum _; rw [outerLoop_zero, Nat.zero_mul]; rfl
  | succ n ih =>
    intro i illum h
    have hrow := innerLoop_uniform image width height fov i v (loopCount fov) 0 illum (by
      intro t ht
      have := h 0 (Nat.succ_pos n) t ht
      rw [show i + 0 = i from rfl] at this
      rw [Nat.zero_add]
      exact this)
    rw [outerLoop_succ, hrow]
    show outerLoop image width height fov n (i + 1) _ = _
    rw [ih (i + 1) _ (by
      intro a ha b hb
      have := h (a + 1) (Nat.succ_lt_succ ha) b hb
      rw [show i + (a + 1) = i + 1 + a by omega] at this
      exact this)]
    rw [Nat.succ_mul, Function.iterate_add_apply]

/-! ## Integer-valued `fov` -/

theorem halfFov_intCast {f : Int} (h : 0 ≤ f) : halfFov (f : ℚ) = f / 2 := by
  unfold halfFov
  rw [if_pos (by exact_mod_cast h)]
  have := Rat.floor_intCast_div_natCast f 2
  simpa using this

theorem loopCount_intCast (f : Int) : loopCount (f : ℚ) = f.toNat := by
  unfold loopCount
  rw [Int.ceil_intCast]

theorem loopCount_of_nonpos {fov : ℚ} (h : fov ≤ 0) : loopCount fov = 0 := by
  unfold loopCount
  have : ⌈fov⌉ ≤ 0 := Int.ceil_le.2 (by simpa using h)
  omega

/-- For an integer `fov` whose square is below `2^53` the product `_fov*_fov` is exact. -/
theorem divisor_intCast (f : Int) (h : f * f < 9007199254740992) :
    divisor (f : ℚ) = some ((f * f : Int) : ℚ) := by
  have h0 : 0 ≤ f * f := mul_self_nonneg f
  have hn : ((f * f).toNat : Int) = f * f := Int.toNat_of_nonneg h0
  have hq : (f : ℚ) * (f : ℚ) = (((f * f).toNat : Nat) : ℚ) := by
    have : (((f * f).toNat : Nat) : ℚ) = ((((f * f).toNat : Nat) : Int) : ℚ) := by push_cast; rfl
    rw [this, hn]
    push_cast
    rfl
  unfold divisor
  rw [hq, roundDouble_natCast _ (by omega)]
  congr 1
  have : (((f * f).toNat : Nat) : ℚ) = ((((f * f).toNat : Nat) : Int) : ℚ) := by push_cast; rfl
  rw [this, hn]

/-! ## The window of a frame that is at least two rows taller than the window -/

/-- Row products stay below the frame size. -/
theorem row_mul_le {W r H : Int} (hW : 0 ≤ W) (hr : r + 1 ≤ H) : W * r + W ≤ W * H := by
  have := Int.mul_le_mul_of_nonneg_left hr hW
  rw [Int.mul_add, Int.mul_one] at this
  exact this

theorem startingPix_eq (width height : Nat) (fov : Int) (hf : 0 < fov)
    (hW : fov ≤ (width : Int)) (hH : fov + 2 ≤ (height : Int))
    (hWH : (width : Int) * (height : Int) < 2147483648) :
    startingPix width height (fov : ℚ)
      = (width : Int) * (((height / 2 : Nat) : Int) - fov / 2) - fov / 2 := by
  have hhalf := halfFov_intCast (Int.le_of_lt hf)
  have hr1 : (1 : Int) ≤ ((height / 2 : Nat) : Int) - fov / 2 := by omega
  have hr2 : ((height / 2 : Nat) : Int) - fov / 2 + 1 ≤ (height : Int) := by omega
  have hup := row_mul_le (Int.le_trans (Int.le_of_lt hf) hW) hr2
  have hlo := Int.mul_le_mul_of_nonneg_left hr1 (Int.le_trans (Int.le_of_lt hf) hW)
  rw [Int.mul_one] at hlo
  have hHb : (height : Int) ≤ (width : Int) * (height : Int) := by
    have h1 : (1 : Int) ≤ (width : Int) := by omega
    have := Int.mul_le_mul_of_nonneg_right h1 (Int.ofNat_nonneg height)
    rw [Int.one_mul] at this
    exact this
  have hr : toUInt32 (((height / 2 : Nat) : Int) - fov / 2)
      = ((height / 2 : Nat) : Int) - fov / 2 :=
    toUInt32_of_range (by omega) (by omega)
  unfold startingPix
  rw [hhalf, hr]
  generalize (width : Int) * (((height / 2 : Nat) : Int) - fov / 2) = A at hup hlo ⊢
  unfold toInt32 toUInt32
  omega

theorem pixelIndex_eq (width height : Nat) (fov : Int) (hf : 0 < fov)
    (hW : fov ≤ (width : Int)) (hH : fov + 2 ≤ (height : Int))
    (hWH : (width : Int) * (height : Int) < 2147483648)
    (i j : Nat) (hi : (i : Int) < fov) (hj : (j : Int) < fov) :
    pixelIndex width height (fov : ℚ) i j
        = (width : Int) * (((height / 2 : Nat) : Int) - fov / 2) - fov / 2
          + (i : Int) * (width : Int) + (j : Int)
      ∧ 0 ≤ pixelIndex width height (fov : ℚ) i j
      ∧ pixelIndex width height (fov : ℚ) i j < (width : Int) * (height : Int) := by
  have hsp := startingPix_eq width height fov hf hW hH hWH
  have hW0 : (0 : Int) ≤ (width : Int) := Int.le_trans (Int.le_of_lt hf) hW
  have hr1 : (1 : Int) ≤ ((height / 2 : Nat) : Int) - fov / 2 := by omega
  have hlo := Int.mul_le_mul_of_nonneg_left hr1 hW0
  rw [Int.mul_one] at hlo
  have hr2 : ((height / 2 : Nat) : Int) - fov / 2 + (i : Int) + 1 ≤ (height : Int) := by omega
  have hup := row_mul_le hW0 hr2
  rw [Int.mul_add, Int.mul_comm (width : Int) (i : Int)] at hup
  have hi0 : (0 : Int) ≤ (i : Int) * (width : Int) :=
    Int.mul_nonneg (Int.ofNat_nonneg i) hW0
  unfold pixelIndex rowIndex
  rw [hsp]
  generalize (width : Int) * (((height / 2 : Nat) : Int) - fov / 2) = A at hup hlo ⊢
  generalize (i : Int) * (width : Int) = B at hup hi0 ⊢
  generalize (width : Int) * (height : Int) = C at hup hWH ⊢
  unfold toInt32 toUInt32
  omega

/-! ## Reads -/

theorem readSample_of_bounds (image : List Byte) (idx : Int) (h0 : 0 ≤ idx)
    (h1 : idx < (image.length : Int)) :
    readSample image idx = some (image.getD idx.toNat 0).val := by
  have hlt : idx.toNat < image.length := by omega
  unfold readSample
  rw [if_neg (by omega), List.getElem?_eq_getElem hlt, List.getD_eq_getElem image 0 hlt]
  rfl

theorem readSample_uniformFrame (width height : Nat) (v : Byte) (idx : Int) (h0 : 0 ≤ idx)
    (h1 : idx < ((width * height : Nat) : Int)) :
    readSample (uniformFrame width height v) idx = some v.val := by
  have hlen : (uniformFrame width height v).length = width * height := List.length_replicate _ _
  have hlt : idx.toNat < (uniformFrame width height v).length := by omega
  rw [readSample_of_bounds _ _ h0 (by omega), List.getD_eq_getElem _ 0 hlt]
  exact congrArg (fun b : Byte => some b.val) (List.getElem_replicate v hlt)

/-! ## One call of `OnNewFrame` -/

theorem OnNewFrame_of_accepts (s : Adapter) (c : FrameCall) (h : accepts s c) :
    OnNewFrame s c =
      { s with
        sensor_update_time := c.sensorLastUpdate
        cameraForwards := s.cameraForwards + 1
        last_update_time := c.simTime
        published := s.published ++ [{ simTime := c.simTime, msg := buildMsg s c }]
        seq := toInt32 (s.seq + 1) } := by
  obtain ⟨ha, hc, ht⟩ := h
  unfold OnNewFrame
  simp only [ha, hc, ht, Bool.not_true, Bool.false_eq_true, if_false, if_true, ge_iff_le]
  rfl

theorem OnNewFrame_of_not_accepts (s : Adapter) (c : FrameCall) (h : ¬ accepts s c) :
    OnNewFrame s c =
      { s with
        sensor_update_time := c.sensorLastUpdate
        active := s.active || decide (c.connectCount > 0) } := by
  unfold accepts at h
  unfold OnNewFrame
  cases ha : s.active
  · by_cases hc : c.connectCount > 0 <;> simp [ha, hc]
  · by_cases hc : c.connectCount > 0
    · have ht : ¬ (c.simTime - s.last_update_time ≥ s.update_period) := fun ht => h ⟨ha, hc, ht⟩
      simp only [ge_iff_le] at ht
      simp [ha, hc, ht]
    · simp [ha, hc]

/-- Claim C1 as stated fails when the `int` counter is at its maximum: the
frame is accepted and published, but the counter does not increase by one. -/
theorem OnNewFrame_publish_seq_overflow :
    saturatedAdapter.active = true ∧ (uniformCall 1 10).connectCount > 0 ∧
    (uniformCall 1 10).simTime - saturatedAdapter.last_update_time
      ≥ saturatedAdapter.update_period ∧
    (OnNewFrame saturatedAdapter (uniformCall 1 10)).published.length
      = saturatedAdapter.published.length + 1 ∧
    (OnNewFrame saturatedAdapter (uniformCall 1 10)).seq ≠ saturatedAdapter.seq + 1 ∧
    (OnNewFrame saturatedAdapter (uniformCall 1 10)).seq = -2147483648 := by
  have h : accepts saturatedAdapter (uniformCall 1 10) := by
    unfold accepts saturatedAdapter uniformCall
    decide
  rw [OnNewFrame_of_accepts _ _ h]
  unfold saturatedAdapter uniformCall
  refine ⟨rfl, by decide, by decide, by simp, by decide, by decide⟩

/-- Claim C1, amended: for an active sensor with a subscriber whose `int`
counter is below `2^31 - 1`, one `OnNewFrame` call publishes exactly one
reading iff `simTime - lastUpdateTime >= updatePeriod`; when it publishes it
sets the last-publish time to the simulated time and increases the counter by
exactly one; otherwise it publishes nothing and leaves both unchanged. -/
theorem OnNewFrame_active_throttle (s : Adapter) (c : FrameCall)
    (hactive : s.active = true) (hcount : c.connectCount > 0)
    (hlo : -2147483648 ≤ s.seq) (hhi : s.seq < 2147483647) :
    ((∃ p, (OnNewFrame s c).published = s.published ++ [p])
        ↔ c.simTime - s.last_update_time ≥ s.update_period) ∧
    (c.simTime - s.last_update_time ≥ s.update_period →
      (OnNewFrame s c).published
          = s.published ++ [{ simTime := c.simTime, msg := buildMsg s c }] ∧
      (OnNewFrame s c).last_update_time = c.simTime ∧
      (OnNewFrame s c).seq = s.seq + 1) ∧
    (c.simTime - s.last_update_time < s.update_period →
      (OnNewFrame s c).published = s.published ∧
      (OnNewFrame s c).last_update_time = s.last_update_time ∧
      (OnNewFrame s c).seq = s.seq) := by
  by_cases ht : c.simTime - s.last_update_time ≥ s.update_period
  · have h : accepts s c := ⟨hactive, hcount, ht⟩
    rw [OnNewFrame_of_accepts s c h]
    refine ⟨⟨fun _ => ht, fun _ => ⟨_, rfl⟩⟩, fun _ => ⟨rfl, rfl, ?_⟩, fun hlt => ?_⟩
    · exact toInt32_of_range (by omega) (by omega)
    · exact absurd ht (by omega)
  · have h : ¬ accepts s c := fun h => ht h.2.2
    rw [OnNewFrame_of_not_accepts s c h]
    refine ⟨⟨fun hp => ?_, fun h' => absurd h' ht⟩, fun h' => absurd h' ht,
      fun _ => ⟨rfl, rfl, rfl⟩⟩
    obtain ⟨p, hp⟩ := hp
    have := congrArg List.length hp
    simp at this

theorem OnNewFrame_active_throttle_witness :
    (OnNewFrame (initial true 0 5) (uniformCall 1 10)).published
        = [{ simTime := 10, msg := buildMsg (initial true 0 5) (uniformCall 1 10) }] ∧
    (OnNewFrame (initial true 0 5) (uniformCall 1 10)).last_update_time = 10 ∧
    (OnNewFrame (initial true 0 5) (uniformCall 1 10)).seq = 1 :=
  (OnNewFrame_active_throttle (initial true 0 5) (uniformCall 1 10) rfl (by decide)
    (by decide) (by decide)).2.1 (by decide)

/-- Claim C2: with `connectionCount == 0` a call publishes nothing and leaves
the sequence counter and the last-publish time unchanged, whatever the
activation state, the times and the update period. -/
theorem OnNewFrame_no_subscriber (s : Adapter) (c : FrameCall) (h : c.connectCount = 0) :
    (OnNewFrame s c).published = s.published ∧
    (OnNewFrame s c).seq = s.seq ∧
    (OnNewFrame s c).last_update_time = s.last_update_time := by
  have hn : ¬ accepts s c := fun ha => by
    have := ha.2.1
    omega
  rw [OnNewFrame_of_not_accepts s c hn]
  exact ⟨rfl, rfl, rfl⟩

theorem OnNewFrame_no_subscriber_witness :
    (OnNewFrame (initial true 0 5) (uniformCall 0 10)).published = [] ∧
    (OnNewFrame (initial true 0 5) (uniformCall 0 10)).seq = 0 ∧
    (OnNewFrame (initial true 0 5) (uniformCall 0 10)).last_update_time = 0 :=
  OnNewFrame_no_subscriber (initial true 0 5) (uniformCall 0 10) rfl

/-- Claim C3: a frame that arrives while the sensor is inactive is not
processed: nothing is published, the last-publish time and the sequence
counter stay as they were, and afterwards the sensor is active iff
`connectionCount > 0`. -/
theorem OnNewFrame_inactive (s : Adapter) (c : FrameCall) (h : s.active = false) :
    (OnNewFrame s c).published = s.published ∧
    (OnNewFrame s c).last_update_time = s.last_update_time ∧
    (OnNewFrame s c).seq = s.seq ∧
    ((OnNewFrame s c).active = true ↔ c.connectCount > 0) := by
  have hn : ¬ accepts s c := fun ha => by
    have := ha.1
    rw [h] at this
    exact Bool.noConfusion this
  rw [OnNewFrame_of_not_accepts s c hn]
  refine ⟨rfl, rfl, rfl, ?_⟩
  simp [h]

theorem OnNewFrame_inactive_witness :
    (OnNewFrame (initial false 0 5) (uniformCall 1 10)).published = [] ∧
    (OnNewFrame (initial false 0 5) (uniformCall 1 10)).last_update_time = 0 ∧
    (OnNewFrame (initial false 0 5) (uniformCall 1 10)).seq = 0 ∧
    ((OnNewFrame (initial false 0 5) (uniformCall 1 10)).active = true
      ↔ (uniformCall 1 10).connectCount > 0) :=
  OnNewFrame_inactive (initial false 0 5) (uniformCall 1 10) rfl

/-! ## Runs of frame events -/

theorem stepEvent_eq (s : Adapter) (e : FrameEvent) :
    stepEvent s e = OnNewFrame (hosted s e) e.call := rfl

theorem hosted_fields (s : Adapter) (e : FrameEvent) :
    (hosted s e).published = s.published ∧ (hosted s e).seq = s.seq ∧
    (hosted s e).last_update_time = s.last_update_time ∧
    (hosted s e).update_period = s.update_period := by
  unfold hosted
  cases e.hostActive <;> exact ⟨rfl, rfl, rfl, rfl⟩

/-- A frame event either leaves the log, the counter and the throttle state
alone, or appends one reading taken at the current simulated time. -/
theorem stepEvent_cases (s : Adapter) (e : FrameEvent) :
    ((stepEvent s e).published = s.published ∧ (stepEvent s e).seq = s.seq ∧
      (stepEvent s e).last_update_time = s.last_update_time ∧
      (stepEvent s e).update_period = s.update_period) ∨
    (∃ p : Published, (stepEvent s e).published = s.published ++ [p] ∧
      p.msg.seq = toUInt32 s.seq ∧
      (stepEvent s e).seq = toInt32 (s.seq + 1) ∧
      (stepEvent s e).last_update_time = p.simTime ∧
      s.update_period ≤ p.simTime - s.last_update_time ∧
      (stepEvent s e).update_period = s.update_period) := by
  obtain ⟨hp, hq, hl, hu⟩ := hosted_fields s e
  rw [stepEvent_eq]
  by_cases h : accepts (hosted s e) e.call
  · right
    rw [OnNewFrame_of_accepts _ _ h]
    refine ⟨{ simTime := e.call.simTime, msg := buildMsg (hosted s e) e.call }, ?_, ?_, ?_, rfl, ?_, hu⟩
    · show (hosted s e).published ++ _ = _
      rw [hp]
    · show toUInt32 (hosted s e).seq = _
      rw [hq]
    · show toInt32 ((hosted s e).seq + 1) = _
      rw [hq]
    · have := h.2.2
      rw [hl, hu] at this
      exact this
  · left
    rw [OnNewFrame_of_not_accepts _ _ h]
    exact ⟨hp, hq, hl, hu⟩

theorem run_nil (s : Adapter) : run s [] = s := rfl

theorem run_cons (s : Adapter) (e : FrameEvent) (es : List FrameEvent) :
    run s (e :: es) = run (stepEvent s e) es := rfl

/-- Spacing of a run's new readings, with the first one measured against the
last-publish time the run started from. -/
theorem run_spaced (es : List FrameEvent) :
    ∀ s : Adapter, ∃ new : List Published,
      (run s es).published = s.published ++ new ∧
      List.Chain' (fun a b : Published => s.update_period ≤ b.simTime - a.simTime) new ∧
      (∀ y ∈ new.head?, s.update_period ≤ y.simTime - s.last_update_time) := by
  induction es with
  | nil =>
    intro s
    exact ⟨[], by rw [run_nil, List.append_nil], List.chain'_nil, by simp⟩
  | cons e es ih =>
    intro s
    obtain ⟨new, hpub, hchain, hhead⟩ := ih (stepEvent s e)
    rw [run_cons]
    rcases stepEvent_cases s e with ⟨hp, _, hl, hu⟩ | ⟨p, hp, _, _, hl, hgap, hu⟩
    · rw [hp] at hpub
      rw [hu] at hchain hhead
      rw [hl] at hhead
      exact ⟨new, hpub, hchain, hhead⟩
    · rw [hp, List.append_assoc] at hpub
      rw [hu] at hchain hhead
      rw [hl] at hhead
      refine ⟨p :: new, hpub, List.chain'_cons'.2 ⟨hhead, hchain⟩, ?_⟩
      intro y hy
      simp only [List.head?_cons, Option.mem_def, Option.some.injEq] at hy
      rw [← hy]
      exact hgap

/-- Sequence numbers of a run's new readings while the `int` counter stays in range. -/
theorem run_seq (es : List FrameEvent) :
    ∀ s : Adapter, ∃ new : List Published,
      (run s es).published = s.published ++ new ∧
      (0 ≤ s.seq → s.seq + (new.length : Int) < 2147483648 →
        ∀ k (hk : k < new.length), (new.get ⟨k, hk⟩).msg.seq = s.seq + (k : Int)) := by
  induction es with
  | nil =>
    intro s
    exact ⟨[], by rw [run_nil, List.append_nil], fun _ _ k hk => absurd hk (Nat.not_lt_zero k)⟩
  | cons e es ih =>
    intro s
    obtain ⟨new, hpub, hseq⟩ := ih (stepEvent s e)
    rw [run_cons]
    rcases stepEvent_cases s e with ⟨hp, hq, _, _⟩ | ⟨p, hp, hm, hq, _, _, _⟩
    · rw [hp] at hpub
      rw [hq] at hseq
      exact ⟨new, hpub, hseq⟩
    · rw [hp, List.append_assoc] at hpub
      refine ⟨p :: new, hpub, ?_⟩
      intro h0 hlen k hk
      simp only [List.length_cons, Nat.cast_add, Nat.cast_one] at hlen
      have hq1 : (stepEvent s e).seq = s.seq + 1 := by
        rw [hq]
        exact toInt32_of_range (by omega) (by omega)
      rw [hq1] at hseq
      cases k with
      | zero =>
        show p.msg.seq = _
        rw [hm, toUInt32_of_range h0 (by omega)]
        simp
      | succ k =>
        have hk1 : k < new.length := Nat.lt_of_succ_lt_succ hk
        have := hseq (by omega) (by omega) k hk1
        show (new.get ⟨k, hk1⟩).msg.seq = _
        rw [this]
        push_cast
        omega

/-- Claim C6: over every run from every adapter state (the host may switch
the sensor on or off between frames; connection counts and simulated times
are arbitrary), any two successive readings published during the run were
published at simulated times at least `updatePeriod` apart. -/
theorem publishes_spaced_by_update_period (s : Adapter) (es : List FrameEvent) :
    ∃ new : List Published,
      (run s es).published = s.published ++ new ∧
      ∀ k (hk : k + 1 < new.length),
        (new.get ⟨k + 1, hk⟩).simTime - (new.get ⟨k, Nat.lt_of_succ_lt hk⟩).simTime
          ≥ s.update_period := by
  obtain ⟨new, hpub, hchain, _⟩ := run_spaced es s
  refine ⟨new, hpub, ?_⟩
  intro k hk
  exact List.chain'_iff_get.1 hchain k (by omega)

/-- Claim C7: starting from counter value 0 and an empty log, over every run
with fewer than `2^31` publishes the `k`-th published reading carries
sequence number `k`. -/
theorem seq_numbers_consecutive (s : Adapter) (es : List FrameEvent)
    (hseq : s.seq = 0) (hlog : s.published = [])
    (hn : (run s es).published.length < 2147483648) :
    ∀ k (hk : k < (run s es).published.length),
      ((run s es).published.get ⟨k, hk⟩).msg.seq = (k : Int) := by
  obtain ⟨new, hpub, hnew⟩ := run_seq es s
  rw [hlog, List.nil_append] at hpub
  rw [hpub] at hn ⊢
  intro k hk
  have := hnew (by omega) (by omega) k hk
  rw [this, hseq]
  omega

theorem seq_numbers_consecutive_witness :
    (run (initial true 0 5) demoEvents).published.length = 3 ∧
    ((run (initial true 0 5) demoEvents).published.get ⟨2, by decide⟩).msg.seq = 2 :=
  ⟨by decide, seq_numbers_consecutive (initial true 0 5) demoEvents rfl rfl (by decide) 2 (by decide)⟩

/-! ## The quotient -/

theorem divDouble_of_round (illum : Nat) (d r : ℚ) (hd : d ≠ 0)
    (h : roundDouble ((illum : ℚ) / d) = some r) :
    divDouble illum (some d) = Mean.value r := by
  unfold divDouble
  simp only [hd, if_false, h]

theorem divDouble_zero (d : Option ℚ) (h : d ≠ some 0) : divDouble 0 d = Mean.value 0 := by
  cases d with
  | none => rfl
  | some d =>
    have hd : d ≠ 0 := fun h0 => h (by rw [h0])
    have hr : roundDouble (((0 : Nat) : ℚ) / d) = some 0 := by
      rw [Nat.cast_zero, zero_div]
      exact roundDouble_zero
    exact divDouble_of_round 0 d 0 hd hr

theorem divDouble_zero_zero : divDouble 0 (some 0) = Mean.nan := by
  unfold divDouble
  simp

/-- The divisor of a `fov` of absolute value at least one is not zero. -/
theorem divisor_ne_zero_of_one_le_sq {fov : ℚ} (h : 1 ≤ fov * fov) : divisor fov ≠ some 0 := by
  unfold divisor
  intro h0
  have := (roundDouble_eq_zero_iff (le_trans zero_le_one h)).1 h0
  have h1 : (2 : ℚ) ^ (-1075 : Int) < 1 := by
    rw [zpow_neg]
    exact inv_lt_one_of_one_lt₀ (one_lt_zpow₀ (by norm_num) (by norm_num))
  linarith

/-! ## The reduction on uniform frames -/

/-- Claim C4, amended: on a frame whose samples all equal `v`, with every
index the window reads inside the buffer, the reduction returns exactly `v`
for every width, height and positive integer `fov` with `fov*fov*v < 2^53`
(the range in which the `double` accumulator is exact). -/
theorem reduce_uniform (image : List Byte) (width height : Nat) (fov : Int) (v : Byte)
    (hf : 0 < fov) (hexact : fov * fov * (v.val : Int) < 9007199254740992)
    (hv : ∀ k (hk : k < image.length), image.get ⟨k, hk⟩ = v)
    (hin : ∀ i j : Nat, (i : Int) < fov → (j : Int) < fov →
      0 ≤ pixelIndex width height (fov : ℚ) i j ∧
      pixelIndex width height (fov : ℚ) i j < (image.length : Int)) :
    reduce image width height (fov : ℚ) = Mean.value (v.val : ℚ) := by
  have hcount := loopCount_intCast fov
  have hn : ((fov.toNat : Nat) : Int) = fov := Int.toNat_of_nonneg (Int.le_of_lt hf)
  have hreads : ∀ a, a < loopCount (fov : ℚ) → ∀ b, b < loopCount (fov : ℚ) →
      readSample image (pixelIndex width height (fov : ℚ) a b)
        = some ((fun _ _ => v.val) a b) := by
    intro a ha b hb
    rw [hcount] at ha hb
    obtain ⟨h0, h1⟩ := hin a b (by omega) (by omega)
    have hlt : (pixelIndex width height (fov : ℚ) a b).toNat < image.length := by omega
    rw [readSample_of_bounds image _ h0 h1, List.getD_eq_getElem image 0 hlt]
    exact congrArg (fun b : Byte => some b.val) (hv _ hlt)
  have hsum : (∑ _a in Finset.range (loopCount (fov : ℚ)),
      ∑ _b in Finset.range (loopCount (fov : ℚ)), v.val) = fov.toNat * (fov.toNat * v.val) := by
    rw [hcount]
    simp only [Finset.sum_const, Finset.card_range, smul_eq_mul]
  have hcast : ((fov.toNat * (fov.toNat * v.val) : Nat) : Int) = fov * fov * (v.val : Int) := by
    push_cast
    rw [hn]
    ring
  have hbound : fov.toNat * (fov.toNat * v.val) < 9007199254740992 := by
    have : ((fov.toNat * (fov.toNat * v.val) : Nat) : Int) < 9007199254740992 := by
      rw [hcast]
      exact hexact
    exact_mod_cast this
  rw [reduce_eq_of_reads image width height (fov : ℚ) (fun _ _ => v.val) hreads
    (by rw [hsum]; exact hbound), hsum]
  have hsq : 1 ≤ fov * fov := by nlinarith
  rcases Nat.eq_zero_or_pos v.val with hv0 | hv0
  · rw [hv0, Nat.mul_zero, Nat.mul_zero, Nat.cast_zero]
    exact divDouble_zero _ (divisor_ne_zero_of_one_le_sq (by exact_mod_cast hsq))
  · have hff : fov * fov < 9007199254740992 := by
      have h1 : (1 : Int) ≤ (v.val : Int) := by exact_mod_cast hv0
      nlinarith
    rw [divisor_intCast fov hff]
    have hd : ((fov * fov : Int) : ℚ) ≠ 0 := by
      have : (0 : ℚ) < ((fov * fov : Int) : ℚ) := by exact_mod_cast (by omega : 0 < fov * fov)
      exact ne_of_gt this
    apply divDouble_of_round _ _ _ hd
    have hq : ((fov.toNat * (fov.toNat * v.val) : Nat) : ℚ) / ((fov * fov : Int) : ℚ)
        = ((v.val : Nat) : ℚ) := by
      have : ((fov.toNat * (fov.toNat * v.val) : Nat) : ℚ)
          = ((fov * fov : Int) : ℚ) * ((v.val : Nat) : ℚ) := by
        have h := congrArg (fun z : Int => (z : ℚ)) hcast
        simp only at h
        push_cast at h ⊢
        exact h
      rw [this]
      field_simp
    rw [hq]
    exact roundDouble_natCast v.val (by omega)

theorem reduce_uniform_witness :
    reduce (uniformFrame 64 48 100) 64 48 ((6 : Int) : ℚ) = Mean.value 100 :=
  reduce_uniform (uniformFrame 64 48 100) 64 48 6 100 (by decide) (by decide)
    (by
      intro k hk
      exact List.getElem_replicate 100 hk)
    (by
      intro i j hi hj
      have h := pixelIndex_eq 64 48 6 (by decide) (by decide) (by decide) (by decide) i j hi hj
      refine ⟨h.2.1, ?_⟩
      have hlen : (uniformFrame 64 48 100).length = 64 * 48 := List.length_replicate _ _
      rw [hlen]
      exact h.2.2)

/-! ## A uniform frame whose total passes `2^53` -/

theorem pixelIndex_tall (i j : Nat) (hi : i < 6000000) (hj : j < 6000000) :
    pixelIndex 1 12000000 ((6000000 : Int) : ℚ) i j = (i : Int) + (j : Int) := by
  have hhalf : halfFov ((6000000 : Int) : ℚ) = 3000000 := by
    rw [halfFov_intCast (by decide)]
    rfl
  unfold pixelIndex rowIndex startingPix
  rw [hhalf]
  unfold toInt32 toUInt32
  omega

theorem readSample_tall (i j : Nat) (hi : i < 6000000) (hj : j < 6000000) :
    readSample tallFrame (pixelIndex 1 12000000 ((6000000 : Int) : ℚ) i j) = some 255 := by
  rw [pixelIndex_tall i j hi hj]
  exact readSample_uniformFrame 1 12000000 255 _ (by omega) (by omega)

theorem iterate_addSample_exact (v : Nat) :
    ∀ k x : Nat, x + v * k < 9007199254740992 → (addSample v)^[k] x = x + v * k := by
  intro k
  induction k with
  | zero => intro x _; rfl
  | succ k ih =>
    intro x h
    have hk : v * (k + 1) = v + v * k := by ring
    rw [hk] at h ⊢
    rw [Function.iterate_succ_apply]
    have hs : addSample v x = x + v := by
      unfold addSample
      exact roundNat_of_lt (by omega)
    rw [hs, ih (x + v) (by omega)]
    omega

theorem iterate_addSample_255_tie :
    ∀ m x : Nat, x % 4 = 0 → 9007199254740992 ≤ x → x + 256 * m < 18014398509481984 →
      (addSample 255)^[m] x = x + 256 * m := by
  intro m
  induction m with
  | zero => intro x _ _ _; rfl
  | succ m ih =>
    intro x h4 hlo hhi
    rw [Function.iterate_succ_apply]
    have hs : addSample 255 x = x + 256 := by
      unfold addSample
      exact roundNat_add_255 x h4 hlo (by omega)
    rw [hs, ih (x + 256) (by omega) (by omega) (by omega)]
    omega

theorem addSample_crossing : addSample 255 9007199254740960 = 9007199254741216 := by
  have hlog : Nat.log 2 (9007199254740960 + 255) = 53 :=
    Nat.log_eq_of_pow_le_of_lt_pow (by norm_num) (by norm_num)
  unfold addSample roundNat
  rw [hlog]
  norm_num

/-- The accumulator after `6000000 * 6000000` additions of 255: exact up to
`255 * 35322350018592`, then one rounding up to a multiple of 4, then `+256`
for each further addition. -/
theorem iterate_addSample_tall :
    (addSample 255)^[6000000 * 6000000] 0 = 9180677649981408 := by
  have hN : 6000000 * 6000000 = 677649981407 + (1 + 35322350018592) := by norm_num
  rw [hN, Function.iterate_add_apply, Function.iterate_add_apply,
    iterate_addSample_exact 255 35322350018592 0 (by norm_num)]
  have h1 : (addSample 255)^[1] (0 + 255 * 35322350018592) = 9007199254741216 := by
    rw [Function.iterate_one]
    norm_num
    exact addSample_crossing
  rw [h1, iterate_addSample_255_tie 677649981407 9007199254741216 (by norm_num) (by norm_num)
    (by norm_num)]

theorem divDouble_eq_value (illum : Nat) (d r : ℚ) (hd : d ≠ 0)
    (h : divDouble illum (some d) = Mean.value r) : roundDouble ((illum : ℚ) / d) = some r := by
  unfold divDouble at h
  simp only [hd, if_false] at h
  cases hq : roundDouble ((illum : ℚ) / d) with
  | none =>
    rw [hq] at h
    exact Mean.noConfusion h
  | some r0 =>
    rw [hq] at h
    simp only [Mean.value.injEq] at h
    rw [h]

theorem roundDouble_tall_ne :
    roundDouble ((9180677649981408 : ℚ) / 36000000000000) ≠ some 255 := by
  have hu : ulpExp ((9180677649981408 : ℚ) / 36000000000000) = 7 - 52 :=
    ulpExp_of_binade 7 (by decide) (by norm_num) (by norm_num)
  intro h
  unfold roundDouble at h
  rw [hu] at h
  split_ifs at h with hlt
  have hm := Option.some.inj h
  have hfl : (255 * 35184372088832 + 1 : Int)
      ≤ ⌊(9180677649981408 : ℚ) / 36000000000000 / (2 : ℚ) ^ ((7 : Int) - 52)⌋ := by
    rw [Int.le_floor]
    norm_num
  have hge := le_trans hfl (floor_le_roundHalfEven _)
  have hgeq : ((255 * 35184372088832 + 1 : Int) : ℚ)
      ≤ (roundHalfEven ((9180677649981408 : ℚ) / 36000000000000 / (2 : ℚ) ^ ((7 : Int) - 52)) : ℚ) := by
    exact_mod_cast hge
  have hz : (2 : ℚ) ^ ((7 : Int) - 52) = 1 / 35184372088832 := by norm_num
  rw [hz] at hm hgeq
  generalize (roundHalfEven ((9180677649981408 : ℚ) / 36000000000000 / (1 / 35184372088832)) : ℚ)
    = m at hm hgeq
  push_cast at hgeq
  linarith

/-- Claim C4 as stated fails once the `double` accumulator passes `2^53`: on
a frame one sample wide and 12000000 tall, all samples 255, with
`fov = 6000000`, every read is in bounds and returns 255, but the total is
`9180677649981408` instead of `255 * 6000000 * 6000000` and the mean is not 255. -/
theorem reduce_uniform_inexact :
    (∀ k (hk : k < tallFrame.length), tallFrame.get ⟨k, hk⟩ = 255) ∧
    (∀ i j : Nat, (i : Int) < 6000000 → (j : Int) < 6000000 →
      0 ≤ pixelIndex 1 12000000 ((6000000 : Int) : ℚ) i j ∧
      pixelIndex 1 12000000 ((6000000 : Int) : ℚ) i j < (tallFrame.length : Int)) ∧
    outerLoop tallFrame 1 12000000 ((6000000 : Int) : ℚ) 6000000 0 0 = some 9180677649981408 ∧
    (9180677649981408 : Nat) ≠ 255 * (6000000 * 6000000) ∧
    reduce tallFrame 1 12000000 ((6000000 : Int) : ℚ) ≠ Mean.value 255 := by
  have hlen : tallFrame.length = 12000000 := by
    unfold tallFrame
    rw [show (uniformFrame 1 12000000 255).length = 1 * 12000000 from List.length_replicate _ _]
  have hcount : loopCount ((6000000 : Int) : ℚ) = 6000000 := by
    rw [loopCount_intCast]
    rfl
  have hloop : outerLoop tallFrame 1 12000000 ((6000000 : Int) : ℚ) 6000000 0 0
      = some 9180677649981408 := by
    have h := outerLoop_uniform tallFrame 1 12000000 ((6000000 : Int) : ℚ) 255 6000000 0 0 (by
      intro a ha b hb
      rw [hcount] at hb
      rw [Nat.zero_add]
      exact readSample_tall a b ha hb)
    rw [hcount, iterate_addSample_tall] at h
    exact h
  refine ⟨?_, ?_, hloop, by norm_num, ?_⟩
  · intro k hk
    exact List.getElem_replicate 255 hk
  · intro i j hi hj
    rw [pixelIndex_tall i j (by omega) (by omega), hlen]
    omega
  · have hred := reduce_of_outerLoop tallFrame 1 12000000 ((6000000 : Int) : ℚ) 9180677649981408
      (by rw [hcount]; exact hloop)
    rw [hred, divisor_intCast 6000000 (by decide)]
    intro h
    have hr := divDouble_eq_value _ _ _ (by norm_num) h
    apply roundDouble_tall_ne
    have e : (((6000000 : Int) * 6000000 : Int) : ℚ) = 36000000000000 := by norm_num
    rw [e] at hr
    have e2 : ((9180677649981408 : Nat) : ℚ) = 9180677649981408 := by norm_num
    rw [e2] at hr
    exact hr

/-! ## The window is not centred -/

theorem pixelIndex_64_48_6 (a b : Nat) (ha : a < 6) (hb : b < 6) :
    pixelIndex 64 48 ((6 : Int) : ℚ) a b = 1341 + 64 * (a : Int) + (b : Int) := by
  have h := (pixelIndex_eq 64 48 6 (by decide) (by decide) (by decide) (by decide) a b
    (by omega) (by omega)).1
  rw [h]
  omega

theorem readSample_darkFrame (a b : Nat) (ha : a < 6) (hb : b < 6) :
    readSample darkFrame (pixelIndex 64 48 ((6 : Int) : ℚ) a b) = some 0 := by
  have hidx := pixelIndex_64_48_6 a b ha hb
  exact readSample_uniformFrame 64 48 0 _ (by omega) (by omega)

theorem readSample_edgeLitFrame (a b : Nat) (ha : a < 6) (hb : b < 6) :
    readSample edgeLitFrame (pixelIndex 64 48 ((6 : Int) : ℚ) a b)
      = some (if a = 0 ∧ b = 0 then 36 else 0) := by
  have hlen0 : (uniformFrame 64 48 0).length = 3072 := List.length_replicate _ _
  have hidx := pixelIndex_64_48_6 a b ha hb
  have hn : (pixelIndex 64 48 ((6 : Int) : ℚ) a b).toNat = 1341 + 64 * a + b := by omega
  unfold readSample
  rw [if_neg (by omega), hn]
  unfold edgeLitFrame
  by_cases h : a = 0 ∧ b = 0
  · obtain ⟨h1, h2⟩ := h
    subst h1 h2
    rw [List.getElem?_set_self (by rw [hlen0]; decide)]
    rfl
  · have hne : 1341 ≠ 1341 + 64 * a + b := by omega
    have hlt : 1341 + 64 * a + b < (uniformFrame 64 48 0).length := by omega
    rw [List.getElem?_set_ne hne, List.getElem?_eq_getElem hlt, if_neg h]
    exact congrArg (fun b : Byte => some b.val) (List.getElem_replicate 0 hlt)

theorem intCast_six : ((6 : Int) : ℚ) = 6 := by norm_num

/-- Claim C5, the code at a failing input: with `fov = 6`, two 64x48 frames
that agree on every sample of the centred 6x6 block (rows 21-26, columns
29-34) reduce to different values, because the window that is read starts at
index `64*21 - 3 = 1341` (row 20, column 61) and not at column `W/2 - f/2`. -/
theorem reduce_not_centred_block :
    darkFrame.length = 64 * 48 ∧ edgeLitFrame.length = 64 * 48 ∧
    (∀ r c : Nat, 21 ≤ r → r < 27 → 29 ≤ c → c < 35 →
      darkFrame[r * 64 + c]? = edgeLitFrame[r * 64 + c]?) ∧
    startingPix 64 48 6 = 1341 ∧
    reduce darkFrame 64 48 6 = Mean.value 0 ∧
    reduce edgeLitFrame 64 48 6 = Mean.value 1 := by
  have hcount : loopCount ((6 : Int) : ℚ) = 6 := by
    rw [loopCount_intCast]
    rfl
  have hdark := reduce_eq_of_reads darkFrame 64 48 ((6 : Int) : ℚ) (fun _ _ => 0)
    (fun a ha b hb => readSample_darkFrame a b (by omega) (by omega)) (by simp)
  have hlit := reduce_eq_of_reads edgeLitFrame 64 48 ((6 : Int) : ℚ)
    (fun a b => if a = 0 ∧ b = 0 then 36 else 0)
    (fun a ha b hb => readSample_edgeLitFrame a b (by omega) (by omega))
    (by rw [hcount]; decide)
  have hsum : (∑ a in Finset.range (loopCount ((6 : Int) : ℚ)),
      ∑ b in Finset.range (loopCount ((6 : Int) : ℚ)),
        if a = 0 ∧ b = 0 then 36 else 0) = 36 := by
    rw [hcount]
    decide
  have hdiv : divisor ((6 : Int) : ℚ) = some 36 := by
    rw [divisor_intCast 6 (by decide)]
    norm_num
  rw [hsum, hdiv] at hlit
  rw [hdiv] at hdark
  simp only [Finset.sum_const_zero] at hdark
  rw [intCast_six] at hdark hlit
  refine ⟨List.length_replicate _ _, ?_, ?_, ?_, ?_, ?_⟩
  · unfold edgeLitFrame
    rw [List.length_set]
    exact List.length_replicate _ _
  · intro r c hr _ _ _
    unfold edgeLitFrame darkFrame
    rw [List.getElem?_set_ne (by omega)]
  · have h := startingPix_eq 64 48 6 (by decide) (by decide) (by decide) (by decide)
    rw [intCast_six] at h
    rw [h]
    decide
  · rw [hdark]
    exact divDouble_zero _ (by simp)
  · rw [hlit]
    apply divDouble_of_round 36 36 1 (by norm_num)
    have h1 := roundDouble_natCast 1 (by norm_num)
    norm_num at h1 ⊢
    exact h1

/-- Claim C8, the code at a failing input: on a 6x6 frame with `fov = 6`
(not larger than the frame) the first index the window reads is `-3`, before
the start of the buffer. -/
theorem window_out_of_bounds_when_height_eq_fov :
    (6 : Int) ≤ ((6 : Nat) : Int) ∧ startingPix 6 6 6 = -3 ∧ pixelIndex 6 6 6 0 0 = -3 ∧
    readSample (uniformFrame 6 6 100) (pixelIndex 6 6 6 0 0) = none ∧
    reduce (uniformFrame 6 6 100) 6 6 6 = Mean.outOfBounds := by
  have hhalf : halfFov 6 = 3 := by
    rw [← intCast_six, halfFov_intCast (by decide)]
    rfl
  have hcount : loopCount 6 = 6 := by
    rw [← intCast_six, loopCount_intCast]
    rfl
  have hsp : startingPix 6 6 6 = -3 := by
    unfold startingPix
    rw [hhalf]
    decide
  have hpix : pixelIndex 6 6 6 0 0 = -3 := by
    unfold pixelIndex rowIndex
    rw [hsp]
    decide
  have hread : readSample (uniformFrame 6 6 100) (pixelIndex 6 6 6 0 0) = none := by
    rw [hpix]
    unfold readSample
    rw [if_pos (by decide)]
  refine ⟨by decide, hsp, hpix, hread, ?_⟩
  apply reduce_of_outerLoop_none
  rw [hcount, outerLoop_succ, hcount, innerLoop_succ, hread]

/-! ## Non-positive `fov` -/

/-- Claim C9 as stated fails for `fov = -1`: the divisor is `1`, and the
reduction of a 64x48 frame returns `0`. -/
theorem divisor_negative_fov_nonzero :
    (-1 : ℚ) ≤ 0 ∧ divisor (-1) = some 1 ∧ divisor (-1) ≠ some 0 ∧
    reduce (uniformFrame 64 48 100) 64 48 (-1) = Mean.value 0 := by
  have hd : divisor (-1) = some 1 := by
    have h := divisor_intCast (-1) (by decide)
    norm_num at h
    exact h
  have hne : divisor (-1) ≠ some 0 := by
    rw [hd]
    norm_num
  have hloop : outerLoop (uniformFrame 64 48 100) 64 48 (-1) (loopCount (-1)) 0 0 = some 0 := by
    rw [loopCount_of_nonpos (by norm_num), outerLoop_zero]
  refine ⟨by norm_num, hd, hne, ?_⟩
  rw [reduce_of_outerLoop _ _ _ _ _ hloop]
  exact divDouble_zero _ hne

/-- Claim C9, amended: for every finite `fov <= 0` the loops add nothing, and
the divisor `fov*fov`, a `double` product, is zero exactly when the product
rounds to zero, that is when `fov*fov <= 2^-1075` (`fov = 0`, or a negative
`fov` as small as `-2^-600`); the reduction is then `0.0/0.0`.  For every
other `fov < 0`, in particular every `fov <= -1`, the divisor is not zero and
the reduction returns `0`. -/
theorem reduce_nonpositive_fov (image : List Byte) (width height : Nat) (fov : ℚ)
    (h : fov ≤ 0) :
    (divisor fov = some 0 ↔ fov * fov ≤ (2 : ℚ) ^ (-1075 : Int)) ∧
    (divisor fov = some 0 → reduce image width height fov = Mean.nan) ∧
    (divisor fov ≠ some 0 → reduce image width height fov = Mean.value 0) ∧
    (fov = 0 → divisor fov = some 0) ∧
    (fov ≤ -1 → divisor fov ≠ some 0) := by
  have hloop : outerLoop image width height fov (loopCount fov) 0 0 = some 0 := by
    rw [loopCount_of_nonpos h, outerLoop_zero]
  have hred := reduce_of_outerLoop _ _ _ _ _ hloop
  have hiff : divisor fov = some 0 ↔ fov * fov ≤ (2 : ℚ) ^ (-1075 : Int) := by
    unfold divisor
    exact roundDouble_eq_zero_iff (mul_self_nonneg fov)
  refine ⟨hiff, fun h0 => ?_, fun hne => ?_, fun h0 => ?_, fun h1 => ?_⟩
  · rw [hred, h0]
    exact divDouble_zero_zero
  · rw [hred]
    exact divDouble_zero _ hne
  · rw [hiff, h0, mul_zero]
    exact le_of_lt (two_zpow_pos _)
  · exact divisor_ne_zero_of_one_le_sq (by nlinarith)

theorem reduce_nonpositive_fov_witness :
    reduce (uniformFrame 64 48 100) 64 48 0 = Mean.nan ∧
    reduce (uniformFrame 64 48 100) 64 48 (-(2 : ℚ) ^ (-600 : Int)) = Mean.nan ∧
    reduce (uniformFrame 64 48 100) 64 48 (-3) = Mean.value 0 :=
  ⟨(reduce_nonpositive_fov (uniformFrame 64 48 100) 64 48 0 (le_refl 0)).2.1
      ((reduce_nonpositive_fov (uniformFrame 64 48 100) 64 48 0 (le_refl 0)).2.2.2.1 rfl),
   (reduce_nonpositive_fov (uniformFrame 64 48 100) 64 48 (-(2 : ℚ) ^ (-600 : Int))
      (by
        have := two_zpow_pos (-600)
        linarith)).2.1
      ((reduce_nonpositive_fov (uniformFrame 64 48 100) 64 48 (-(2 : ℚ) ^ (-600 : Int))
        (by
          have := two_zpow_pos (-600)
          linarith)).1.2
        (by
          rw [neg_mul_neg, ← zpow_add₀ (by norm_num)]
          exact zpow_le_zpow_right₀ (by norm_num) (by norm_num))),
   (reduce_nonpositive_fov (uniformFrame 64 48 100) 64 48 (-3) (by norm_num)).2.2.1
      ((reduce_nonpositive_fov (uniformFrame 64 48 100) 64 48 (-3) (by norm_num)).2.2.2.2
        (by norm_num))⟩

/-! ## Frames at least two rows taller than the window -/

theorem sum_window_le (n : Nat) (g : Nat → Nat → Nat) (hg : ∀ a b, g a b ≤ 255) :
    ∑ a in Finset.range n, ∑ b in Finset.range n, g a b ≤ n * (n * 255) := by
  have h1 : ∀ a ∈ Finset.range n, ∑ b in Finset.range n, g a b ≤ n * 255 := by
    intro a _
    have := Finset.sum_le_card_nsmul (Finset.range n) (g a) 255 (fun b _ => hg a b)
    simpa using this
  have := Finset.sum_le_card_nsmul (Finset.range n) _ (n * 255) h1
  simpa using this

/-- Claim C10: for a positive `fov`, width at least `fov`, height at least
`fov + 2` and `W*H < 2^31`, every index `startingPix + i*W + j` with
`0 <= i, j < fov` lies in `[0, W*H)`, so on a buffer of `W*H` samples every
read succeeds and the reduction returns a finite value. -/
theorem window_in_bounds_of_two_spare_rows (width height : Nat) (fov : Int)
    (hf : 0 < fov) (hW : fov ≤ (width : Int)) (hH : fov + 2 ≤ (height : Int))
    (hWH : (width : Int) * (height : Int) < 2147483648)
    (i j : Nat) (hi : (i : Int) < fov) (hj : (j : Int) < fov)
    (image : List Byte) (hlen : image.length = width * height) :
    pixelIndex width height (fov : ℚ) i j
        = startingPix width height (fov : ℚ) + (i : Int) * (width : Int) + (j : Int) ∧
    0 ≤ pixelIndex width height (fov : ℚ) i j ∧
    pixelIndex width height (fov : ℚ) i j < (width : Int) * (height : Int) ∧
    (∃ v, readSample image (pixelIndex width height (fov : ℚ) i j) = some v) ∧
    (∃ q, reduce image width height (fov : ℚ) = Mean.value q) := by
  have hlenZ : (image.length : Int) = (width : Int) * (height : Int) := by
    rw [hlen]
    push_cast
    rfl
  have hidx := pixelIndex_eq width height fov hf hW hH hWH
  obtain ⟨he, h0, h1⟩ := hidx i j hi hj
  refine ⟨?_, h0, h1, ⟨_, readSample_of_bounds image _ h0 (by rw [hlenZ]; exact h1)⟩, ?_⟩
  · rw [he, startingPix_eq width height fov hf hW hH hWH]
  · have hcount := loopCount_intCast fov
    have hn : ((fov.toNat : Nat) : Int) = fov := Int.toNat_of_nonneg (Int.le_of_lt hf)
    obtain ⟨g, hg⟩ : ∃ g : Nat → Nat → Nat,
        ∀ a b, g a b = (image.getD (pixelIndex width height (fov : ℚ) a b).toNat 0).val :=
      ⟨_, fun _ _ => rfl⟩
    have hreads : ∀ a, a < loopCount (fov : ℚ) → ∀ b, b < loopCount (fov : ℚ) →
        readSample image (pixelIndex width height (fov : ℚ) a b) = some (g a b) := by
      intro a ha b hb
      rw [hcount] at ha hb
      obtain ⟨_, ha0, ha1⟩ := hidx a b (by omega) (by omega)
      rw [hg]
      exact readSample_of_bounds image _ ha0 (by rw [hlenZ]; exact ha1)
    -- the window is smaller than the frame, so the total is far below `2^53`
    have hff : fov * fov < 2147483648 := by
      have h2 : fov * fov ≤ (width : Int) * (height : Int) := by nlinarith
      omega
    have hsum := sum_window_le fov.toNat g (fun a b => by
      rw [hg]
      exact Nat.le_of_lt_succ (image.getD (pixelIndex width height (fov : ℚ) a b).toNat 0).isLt)
    have hnn : fov.toNat * fov.toNat < 2147483648 := by
      have : ((fov.toNat * fov.toNat : Nat) : Int) < 2147483648 := by
        push_cast
        rw [hn]
        exact hff
      exact_mod_cast this
    have hbound : fov.toNat * (fov.toNat * 255) < 9007199254740992 := by
      have : fov.toNat * (fov.toNat * 255) = fov.toNat * fov.toNat * 255 := by ring
      omega
    rw [reduce_eq_of_reads image width height (fov : ℚ) g hreads
      (by rw [hcount]; exact lt_of_le_of_lt hsum hbound),
      divisor_intCast fov (by omega), hcount]
    generalize (∑ a in Finset.range fov.toNat, ∑ b in Finset.range fov.toNat, g a b)
      = total at hsum
    have hdpos : (0 : ℚ) < ((fov * fov : Int) : ℚ) := by
      exact_mod_cast (by nlinarith : 0 < fov * fov)
    have hq0 : (0 : ℚ) ≤ (total : ℚ) / ((fov * fov : Int) : ℚ) :=
      div_nonneg (Nat.cast_nonneg total) (le_of_lt hdpos)
    have hq1 : (total : ℚ) / ((fov * fov : Int) : ℚ) ≤ 256 := by
      rw [div_le_iff₀ hdpos]
      have h3 : (total : ℚ) ≤ ((fov.toNat * (fov.toNat * 255) : Nat) : ℚ) := by
        exact_mod_cast hsum
      have h4 : ((fov.toNat * (fov.toNat * 255) : Nat) : ℚ)
          = ((fov * fov : Int) : ℚ) * 255 := by
        have : ((fov.toNat : Nat) : ℚ) = ((fov : Int) : ℚ) := by
          rw [← hn]
          push_cast
          rw [hn]
        push_cast
        rw [this]
        ring
      rw [h4] at h3
      linarith
    obtain ⟨r, hr, _⟩ := roundDouble_eq_some_of_le hq0 hq1
    exact ⟨r, divDouble_of_round total _ r (ne_of_gt hdpos) hr⟩

theorem window_in_bounds_of_two_spare_rows_witness :
    pixelIndex 6 8 ((6 : Int) : ℚ) 5 5 = startingPix 6 8 ((6 : Int) : ℚ) + 5 * 6 + 5 ∧
    0 ≤ pixelIndex 6 8 ((6 : Int) : ℚ) 5 5 ∧
    pixelIndex 6 8 ((6 : Int) : ℚ) 5 5 < 6 * 8 ∧
    (∃ v, readSample (uniformFrame 6 8 100) (pixelIndex 6 8 ((6 : Int) : ℚ) 5 5) = some v) ∧
    (∃ q, reduce (uniformFrame 6 8 100) 6 8 ((6 : Int) : ℚ) = Mean.value q) :=
  window_in_bounds_of_two_spare_rows 6 8 6 (by decide) (by decide) (by decide) (by decide)
    5 5 (by decide) (by decide) (uniformFrame 6 8 100) (List.length_replicate _ _)

end LightSensor
